import Mathlib

/-!
Verification of the EntiPy entity-resolution core.

The development shallowly embeds the two source modules:

* `entipy/datamodels.py` — the field-level Fellegi-Sunter scoring
  (`Field`, `Reference.compare`) and the cluster-level data model
  (`Cluster`, blocking, `weightsum`, `merge`, `Pair`);
* `entipy/resolvers.py` — the greedy agglomerative machinery
  (`SerialResolver._cluster_pass`, `_cluster_solve`, `_cluster_stream`,
  `resolve`, and `MergeResolver.add`).

The field level works over `ℝ` with `Real.log`, exactly as the source
works over floats with `math.log`.  The cluster level is parameterised
by an arbitrary pairwise score function into a linearly ordered
commutative ring: nothing in `resolvers.py` inspects the score beyond
sums, `max 0` and comparisons with `0`, so every theorem below holds
for the real-valued score of `datamodels.py` as a special case, and
concrete runs can be evaluated over `ℤ`.
-/

namespace EntiPy

/-- A user-defined field as consumed by `Reference.compare`
(`datamodels.Field` and its user subclasses): a possibly absent value,
the two match probabilities, the `exclude` flag and the user-supplied
boolean comparator.  The source defaults are `0.9` / `0.1` and
value-equality; here all components are explicit.
-/
structure Field (V : Type) where
  value : Option V
  true_match_probability : ℝ
  false_match_probability : ℝ
  exclude : Bool
  cmp : V → V → Bool

/-- Source `Reference._fellegi_sunter_adjustment`: the log-odds contribution of
one boolean field comparison. -/
noncomputable def fellegi_sunter_adjustment (b : Bool)
    (true_match_probability false_match_probability : ℝ) : ℝ :=
  if b then Real.log (true_match_probability / false_match_probability)
  else Real.log ((1 - true_match_probability) / (1 - false_match_probability))

/-- A reference as seen by the scoring code (`datamodels.Reference`): the
duplicate-free set of instantiated field names (`field_names`, a
`SortedSet` in the source) and, for every name, the field bound to it.
A name that was never instantiated on the object is represented by a
field whose `value` is `none`, matching the source where an
uninstantiated class attribute has no `value` and is nil-skipped.
-/
structure Reference (V : Type) where
  field_names : Finset String
  fields : String → Field V

/-- `Reference.compare`: the sum, over the field names instantiated on
`self`, of the Fellegi-Sunter adjustments, skipping a name when either
side's value is absent or either side's field is excluded.  The
accumulating `for` loop of the source is rendered as a finite sum whose
skipped terms are `0`.
-/
noncomputable def Reference.compare {V : Type} (self other : Reference V) : ℝ :=
  ∑ name in self.field_names,
    match (self.fields name).value, (other.fields name).value with
    | some v1, some v2 =>
        if (self.fields name).exclude ∨ (other.fields name).exclude then 0
        else
          fellegi_sunter_adjustment ((self.fields name).cmp v1 v2)
            (self.fields name).true_match_probability
            (self.fields name).false_match_probability
    | _, _ => 0

/-- The specification's per-field contribution, written from the spec's
words (section 4.1): `log(p_match / p_nomatch)` when the comparator
returns true, `log((1 - p_match) / (1 - p_nomatch))` otherwise, and
exactly `0` when either side's value is absent or either side's field
has `exclude = true`.
-/
noncomputable def fsContribution {V : Type} (r1 r2 : Reference V) (name : String) : ℝ :=
  match (r1.fields name).value, (r2.fields name).value with
  | some v1, some v2 =>
      if (r1.fields name).exclude ∨ (r2.fields name).exclude then 0
      else if (r1.fields name).cmp v1 v2 then
        Real.log ((r1.fields name).true_match_probability /
          (r1.fields name).false_match_probability)
      else
        Real.log ((1 - (r1.fields name).true_match_probability) /
          (1 - (r1.fields name).false_match_probability))
  | _, _ => 0

/-- A field name actually contributes to `r.compare r`: its value is
present and it is not excluded. -/
def Contributing {V : Type} (r : Reference V) (name : String) : Prop :=
  (∃ v, (r.fields name).value = some v) ∧ (r.fields name).exclude = false

end EntiPy

namespace EntiPy

/-- Claim C2: for every pair of references, `Reference.compare r1 r2`
equals the sum, over the field names present on `r1`, of the
Fellegi-Sunter contribution — `log(p_match / p_nomatch)` on a true
comparison, `log((1 - p_match) / (1 - p_nomatch))` otherwise — a name
contributing exactly `0` whenever either side's value is absent or
either side's field is excluded. -/
theorem compare_eq_sum_fsContribution {V : Type} (r1 r2 : Reference V) :
    r1.compare r2 = ∑ name in r1.field_names, fsContribution r1 r2 name := by
  unfold Reference.compare fsContribution
  refine Finset.sum_congr rfl fun name _ => ?_
  rcases h1 : (r1.fields name).value with _ | v1 <;>
    rcases h2 : (r2.fields name).value with _ | v2 <;>
      simp [fellegi_sunter_adjustment]

/-- A reference with no fields at all, over the unit value type. -/
noncomputable def emptyRef : Reference Unit :=
  { field_names := ∅
    fields := fun _ =>
      { value := none
        true_match_probability := 9 / 10
        false_match_probability := 1 / 10
        exclude := false
        cmp := fun _ _ => true } }

/-- Claim C4, counterexample: the claim `r.compare r > 0` for *every*
reference fails on a reference with no populated fields — its
self-comparison is `0`, not strictly positive. -/
theorem not_self_compare_pos : ¬ (0 < emptyRef.compare emptyRef) := by
  simp [Reference.compare, emptyRef]

/-- Claim C4, amended: a reference with at least one contributing field
(populated, not excluded), whose fields' comparators are reflexive on
their present values and whose probabilities are non-degenerate
(`0 < p_nomatch < p_match < 1`) on every contributing field, compares
to itself strictly positively. -/
theorem self_compare_pos {V : Type} (r : Reference V)
    (hone : ∃ name ∈ r.field_names, Contributing r name)
    (hprob : ∀ name ∈ r.field_names, Contributing r name →
      0 < (r.fields name).false_match_probability ∧
      (r.fields name).false_match_probability < (r.fields name).true_match_probability ∧
      (r.fields name).true_match_probability < 1)
    (hrefl : ∀ name ∈ r.field_names, ∀ v, (r.fields name).value = some v →
      (r.fields name).cmp v v = true) :
    0 < r.compare r := by
  unfold Reference.compare
  apply Finset.sum_pos'
  · intro name hname
    rcases hv : (r.fields name).value with _ | v
    · simp
    · by_cases hex : (r.fields name).exclude
      · simp [hv, hex]
      · have hc : Contributing r name := ⟨⟨v, hv⟩, by simpa using hex⟩
        obtain ⟨hf0, hff, _⟩ := hprob name hname hc
        have hcmp := hrefl name hname v hv
        simp only [hv, hex, Bool.false_eq_true, or_self, if_false,
          fellegi_sunter_adjustment, hcmp, if_true]
        exact le_of_lt (Real.log_pos ((one_lt_div hf0).mpr hff))
  · obtain ⟨name, hname, hc⟩ := hone
    refine ⟨name, hname, ?_⟩
    obtain ⟨⟨v, hv⟩, hex⟩ := hc
    obtain ⟨hf0, hff, _⟩ := hprob name hname ⟨⟨v, hv⟩, hex⟩
    have hcmp := hrefl name hname v hv
    simp only [hv, hex, Bool.false_eq_true, or_self, if_false,
      fellegi_sunter_adjustment, hcmp, if_true]
    exact Real.log_pos ((one_lt_div hf0).mpr hff)

/-- A single-field reference over `Unit` whose one field is populated,
not excluded, with the default probabilities and a reflexive
comparator. -/
noncomputable def oneFieldRef : Reference Unit :=
  { field_names := {"observed_name"}
    fields := fun _ =>
      { value := some ()
        true_match_probability := 9 / 10
        false_match_probability := 1 / 10
        exclude := false
        cmp := fun _ _ => true } }

/-- Witness for the amended claim C4, at the one-field reference. -/
theorem self_compare_pos_witness : 0 < oneFieldRef.compare oneFieldRef := by
  apply self_compare_pos oneFieldRef
  · exact ⟨"observed_name", by simp [oneFieldRef], ⟨(), rfl⟩, rfl⟩
  · intro name _ _
    refine ⟨by norm_num [oneFieldRef], by norm_num [oneFieldRef], by norm_num [oneFieldRef]⟩
  · intro name _ v _
    rfl

/-- A reference over `ℕ` with one populated field carrying value `1`
and the (asymmetric, but legal) user comparator `fun a b => a ≤ b`. -/
noncomputable def leRefA : Reference ℕ :=
  { field_names := {"f"}
    fields := fun _ =>
      { value := some 1
        true_match_probability := 9 / 10
        false_match_probability := 1 / 10
        exclude := false
        cmp := fun a b => decide (a ≤ b) } }

/-- The same schema as `leRefA` (same comparator and probabilities),
with value `0`. -/
noncomputable def leRefB : Reference ℕ :=
  { field_names := {"f"}
    fields := fun _ =>
      { value := some 0
        true_match_probability := 9 / 10
        false_match_probability := 1 / 10
        exclude := false
        cmp := fun a b => decide (a ≤ b) } }

/-- Claim C8, counterexample: two references sharing a schema (same
field names, same per-field comparator and probabilities) with all
fields populated need not compare symmetrically — the shared comparator
`fun a b => a ≤ b` makes `leRefA.compare leRefB = log (1/9)` while
`leRefB.compare leRefA = log 9`. -/
theorem compare_not_comm : leRefA.compare leRefB ≠ leRefB.compare leRefA := by
  have h1 : leRefA.compare leRefB = Real.log ((1 - 9 / 10 : ℝ) / (1 - 1 / 10)) := by
    simp [Reference.compare, leRefA, leRefB, fellegi_sunter_adjustment]
  have h2 : leRefB.compare leRefA = Real.log ((9 / 10 : ℝ) / (1 / 10)) := by
    simp [Reference.compare, leRefA, leRefB, fellegi_sunter_adjustment]
  rw [h1, h2]
  have ha : Real.log ((1 - 9 / 10 : ℝ) / (1 - 1 / 10)) < 0 :=
    Real.log_neg (by norm_num) (by norm_num)
  have hb : 0 < Real.log ((9 / 10 : ℝ) / (1 / 10)) := Real.log_pos (by norm_num)
  exact ne_of_lt (lt_trans ha hb)

/-- Claim C8, amended: two references sharing a schema (same field
names, same per-field comparator and probabilities) whose shared
comparators are moreover *symmetric*, and whose fields are all
populated, compare symmetrically: `r1.compare r2 = r2.compare r1`. -/
theorem compare_comm {V : Type} (r1 r2 : Reference V)
    (hnames : r1.field_names = r2.field_names)
    (hcmp : ∀ name, (r1.fields name).cmp = (r2.fields name).cmp)
    (hsymm : ∀ name a b, (r1.fields name).cmp a b = (r1.fields name).cmp b a)
    (htm : ∀ name, (r1.fields name).true_match_probability =
      (r2.fields name).true_match_probability)
    (hfm : ∀ name, (r1.fields name).false_match_probability =
      (r2.fields name).false_match_probability)
    (hpop : ∀ name ∈ r1.field_names,
      ((r1.fields name).value).isSome ∧ ((r2.fields name).value).isSome) :
    r1.compare r2 = r2.compare r1 := by
  unfold Reference.compare
  rw [← hnames]
  refine Finset.sum_congr rfl fun name hname => ?_
  obtain ⟨h1, h2⟩ := hpop name hname
  obtain ⟨v1, hv1⟩ := Option.isSome_iff_exists.mp h1
  obtain ⟨v2, hv2⟩ := Option.isSome_iff_exists.mp h2
  simp only [hv1, hv2]
  have hc : (r2.fields name).cmp v2 v1 = (r1.fields name).cmp v1 v2 := by
    rw [← hcmp name, hsymm]
  rw [hc, htm name, hfm name]
  exact if_congr or_comm rfl rfl

/-- A one-field reference over `ℕ` with a constant-true (symmetric)
comparator and value `0`. -/
noncomputable def symRefA : Reference ℕ :=
  { field_names := {"f"}
    fields := fun _ =>
      { value := some 0
        true_match_probability := 9 / 10
        false_match_probability := 1 / 10
        exclude := false
        cmp := fun _ _ => true } }

/-- Same schema as `symRefA`, with value `1`. -/
noncomputable def symRefB : Reference ℕ :=
  { field_names := {"f"}
    fields := fun _ =>
      { value := some 1
        true_match_probability := 9 / 10
        false_match_probability := 1 / 10
        exclude := false
        cmp := fun _ _ => true } }

/-- Witness for the amended claim C8, at two populated same-schema
references with a symmetric comparator. -/
theorem compare_comm_witness : symRefA.compare symRefB = symRefB.compare symRefA :=
  compare_comm symRefA symRefB rfl (fun _ => rfl) (fun _ _ _ => rfl)
    (fun _ => rfl) (fun _ => rfl) (fun _ _ => ⟨rfl, rfl⟩)

end EntiPy

namespace EntiPy.ER

/-- A reference as the clustering machinery of `resolvers.py` sees it: its
identity (`oid`, Python equality and hashing on `Reference` are by
`oid`) and its blocking-key mapping `name → value` (a dict, rendered as
a duplicate-free association list).  The pairwise score
`Reference.compare` is abstracted into a parameter `score` below, since
the resolver only ever sums scores and compares them with zero.
-/
structure Ref where
  oid : ℕ
  blocking_keys : List (String × String)
deriving DecidableEq

/-- Source `datamodels.Cluster`: a fresh id and the set of member references. -/
structure Cluster where
  oid : ℕ
  references : Finset Ref
deriving DecidableEq

/-- The blocking-key names carried by some member reference — the key
set of the dict built by `Cluster.__init__`. -/
def Cluster.bk_names (c : Cluster) : Finset String :=
  c.references.biUnion fun r => (r.blocking_keys.map Prod.fst).toFinset

/-- The set of blocking-key values the members carry for `name` — the
value sets of the dict built by `Cluster.__init__` (empty exactly when
no member carries `name`). -/
def Cluster.bk_values (c : Cluster) (name : String) : Finset String :=
  c.references.biUnion fun r =>
    match r.blocking_keys.lookup name with
    | some v => {v}
    | none => ∅

/-- Source `Cluster.has_common_block`: some key name carried on both sides has
intersecting value sets.  (The source iterates the union of the two key
name sets and skips a name missing on either side, which is the same as
iterating the intersection.) -/
def Cluster.has_common_block (c1 c2 : Cluster) : Prop :=
  ∃ name ∈ c1.bk_names ∩ c2.bk_names, ((c1.bk_values name) ∩ (c2.bk_values name)).Nonempty

instance (c1 c2 : Cluster) : Decidable (c1.has_common_block c2) := by
  unfold Cluster.has_common_block
  infer_instance

variable {α : Type} [LinearOrderedCommRing α]

/-- Source `Cluster.compare`: the blocking-gated raw sum of pairwise reference
scores over the Cartesian product of the two member sets. -/
def Cluster.compare (score : Ref → Ref → α) (c1 c2 : Cluster) : α :=
  if c1.has_common_block c2 then
    ∑ r1 in c1.references, ∑ r2 in c2.references, score r1 r2
  else 0

/-- Source `Cluster.weightsum`: as `Cluster.compare`, additionally clamped at
zero by the final `max(0, score)`. -/
def Cluster.weightsum (score : Ref → Ref → α) (c1 c2 : Cluster) : α :=
  if c1.has_common_block c2 then
    max 0 (∑ r1 in c1.references, ∑ r2 in c2.references, score r1 r2)
  else 0

/-- Source `Cluster.merge`, with the fresh id minted by the global counter
made explicit: the merged cluster holds the union of the two reference
sets. -/
def Cluster.merge (fresh : ℕ) (c1 c2 : Cluster) : Cluster :=
  ⟨fresh, c1.references ∪ c2.references⟩

/-- Source `datamodels.Pair`: the two cluster ids (stored lo/hi) and the
score, the priority-queue element popped by maximal
`possible_improvement`. -/
structure Pair (α : Type) where
  cluster_oid_1 : ℕ
  cluster_oid_2 : ℕ
  possible_improvement : α

/-- Source `Pair.__init__` normalises the two ids to (min, max). -/
def mkPair (o1 o2 : ℕ) (w : α) : Pair α := ⟨min o1 o2, max o1 o2, w⟩

/-- The resolver's `cluster_map` (`{oid: cluster}`), rendered as an
insertion-ordered association list with duplicate-free keys, which is
exactly the iteration behaviour of a Python dict. -/
abbrev CMap := List (ℕ × Cluster)

/-- Dict lookup `cluster_map.get(oid)`. -/
def getOid (k : ℕ) : CMap → Option Cluster
  | [] => none
  | e :: t => if e.1 = k then some e.2 else getOid k t

/-- Dict deletion `del cluster_map[oid]`, preserving the order of the
remaining entries. -/
def delKey (k : ℕ) (m : CMap) : CMap := m.filter fun e => decide (e.1 ≠ k)

/-- The candidate pairs built by `SerialResolver._cluster_pass`: over
all entry pairs with `oid_1 < oid_2`, those of strictly positive
weightsum. -/
def passCandidates (score : Ref → Ref → α) (m : CMap) : List (Pair α) :=
  m.flatMap fun e1 =>
    m.filterMap fun e2 =>
      if e1.1 < e2.1 ∧ 0 < Cluster.weightsum score e1.2 e2.2 then
        some (mkPair e1.1 e2.1 (Cluster.weightsum score e1.2 e2.2))
      else none

/-- Keep the pair with the larger score; the left is kept on ties
(`SortedSet.pop` pops a maximal element, ties being unspecified). -/
def pickBetter (p q : Pair α) : Pair α :=
  if p.possible_improvement < q.possible_improvement then q else p

/-- Pop a maximal-score pair from a non-empty collection. -/
def bestPair (p : Pair α) (l : List (Pair α)) : Pair α := l.foldl pickBetter p

/-- Source `SerialResolver._cluster_pass` on the state (fresh-id counter,
cluster map): merge the best strictly positive pair if any, reporting
optimality otherwise.  The final catch-all arm is never reached (a
candidate's ids are keys of the map). -/
def clusterPass (score : Ref → Ref → α) (st : ℕ × CMap) : (ℕ × CMap) × Bool :=
  match passCandidates score st.2 with
  | [] => (st, true)
  | p :: ps =>
    match getOid (bestPair p ps).cluster_oid_1 st.2, getOid (bestPair p ps).cluster_oid_2 st.2 with
    | some c1, some c2 =>
      ((st.1 + 1,
        delKey (bestPair p ps).cluster_oid_2 (delKey (bestPair p ps).cluster_oid_1 st.2) ++
          [(st.1, Cluster.merge st.1 c1 c2)]), false)
    | _, _ => (st, true)

/-- The `while` loop of `SerialResolver._cluster_solve`, with explicit
fuel; one fuel unit is spent per non-optimal pass. -/
def clusterSolveAux (score : Ref → Ref → α) : ℕ → (ℕ × CMap) → Bool → (ℕ × CMap) × Bool
  | 0, st, changed => (st, changed)
  | fuel + 1, st, changed =>
    match clusterPass score st with
    | (st', true) => (st', changed)
    | (st', false) => clusterSolveAux score fuel st' true

/-- Source `SerialResolver._cluster_solve`: iterate `clusterPass` to the
optimum.  Each non-optimal pass removes one cluster, so `length` fuel
always suffices (proved below). -/
def clusterSolve (score : Ref → Ref → α) (st : ℕ × CMap) : (ℕ × CMap) × Bool :=
  clusterSolveAux score st.2.length st false

/-- The `pair_set` built per iteration of `SerialResolver._cluster_stream`:
positive-weightsum pairs of an active cluster against any other entry. -/
def pairSet (score : Ref → Ref → α) (active m : CMap) : List (Pair α) :=
  active.flatMap fun a =>
    m.filterMap fun e =>
      if a.1 ≠ e.1 ∧ 0 < Cluster.weightsum score a.2 e.2 then
        some (mkPair a.1 e.1 (Cluster.weightsum score a.2 e.2))
      else none

/-- The merge-back step of `_cluster_stream`: entries of the local
solution absent from the map are appended (and become active); the two
popped ids are removed when the solution no longer contains them.
Returns (new map, new active set). -/
def mergeBack (solution : CMap) (o1 o2 : ℕ) (m : CMap) : CMap × CMap :=
  let step := solution.foldl
    (fun acc e => if (getOid e.1 acc.1).isSome then acc else (acc.1 ++ [e], acc.2 ++ [e]))
    (m, ([] : CMap))
  let m1 := if (getOid o1 solution).isSome then step.1 else delKey o1 step.1
  let m2 := if (getOid o2 solution).isSome then m1 else delKey o2 m1
  (m2, step.2)

/-- The completion loop of `SerialResolver._cluster_stream`: build the
pair set of the active clusters, stop when it is empty, otherwise pop a
maximal pair, locally solve the two clusters and merge the solution
back.  The catch-all arm is never reached (a freshly built pair's ids
are keys of the map). -/
def streamLoop (score : Ref → Ref → α) : ℕ → CMap → (ℕ × CMap) → ℕ × CMap
  | 0, _, st => st
  | fuel + 1, active, st =>
    match pairSet score active st.2 with
    | [] => st
    | p :: ps =>
      match getOid (bestPair p ps).cluster_oid_1 st.2, getOid (bestPair p ps).cluster_oid_2 st.2 with
      | some c1, some c2 =>
        streamLoop score fuel
          (mergeBack (clusterSolve score
              (st.1, [((bestPair p ps).cluster_oid_1, c1), ((bestPair p ps).cluster_oid_2, c2)])).1.2
            (bestPair p ps).cluster_oid_1 (bestPair p ps).cluster_oid_2 st.2).2
          ((clusterSolve score
              (st.1, [((bestPair p ps).cluster_oid_1, c1), ((bestPair p ps).cluster_oid_2, c2)])).1.1,
            (mergeBack (clusterSolve score
                (st.1, [((bestPair p ps).cluster_oid_1, c1), ((bestPair p ps).cluster_oid_2, c2)])).1.2
              (bestPair p ps).cluster_oid_1 (bestPair p ps).cluster_oid_2 st.2).1)
      | _, _ => st

/-- Source `SerialResolver._cluster_stream`: wrap the incoming observations
(the singleton of a new reference, or the member set of an incoming
cluster) as a fresh cluster, insert it into the map as the only active
cluster, and run the completion loop.  The loop removes one cluster per
iteration, so `length + 1` fuel always suffices (proved below). -/
def clusterStream (score : Ref → Ref → α) (refs : Finset Ref) (st : ℕ × CMap) : ℕ × CMap :=
  streamLoop score (st.2.length + 1) [(st.1, (⟨st.1, refs⟩ : Cluster))]
    (st.1 + 1, st.2 ++ [(st.1, (⟨st.1, refs⟩ : Cluster))])

/-- Source `SerialResolver.resolve` applied after any sequence of `add` calls:
stream every pending reference into the cluster map in order. -/
def resolveAll (score : Ref → Ref → α) (refs : List Ref) (st : ℕ × CMap) : ℕ × CMap :=
  refs.foldl (fun acc r => clusterStream score {r} acc) st

/-- A full `SerialResolver` run from the initial empty `cluster_map`. -/
def serialResolve (score : Ref → Ref → α) (refs : List Ref) : ℕ × CMap :=
  resolveAll score refs (0, [])

/-- The spec's local-optimality property of a cluster map: no two
entries with distinct ids have strictly positive weightsum. -/
def LocalOpt (score : Ref → Ref → α) (m : CMap) : Prop :=
  ∀ e1 ∈ m, ∀ e2 ∈ m, e1.1 ≠ e2.1 → ¬ (0 < Cluster.weightsum score e1.2 e2.2)

instance (score : Ref → Ref → α) (m : CMap) : Decidable (LocalOpt score m) := by
  unfold LocalOpt
  infer_instance

/-- Well-formedness of a resolver state: the map's keys are
duplicate-free (it is a dict) and all of them are below the id counter
(every id the global counter will mint is fresh for the map). -/
def WF (st : ℕ × CMap) : Prop :=
  (st.2.map Prod.fst).Nodup ∧ ∀ k ∈ st.2.map Prod.fst, k < st.1

/-- The multiset union of the reference sets of all live clusters. -/
def refsOf (m : CMap) : Multiset Ref :=
  (m.map fun e => e.2.references.val).sum

/-- Source `resolvers.MergeResolver`: its reference queue, cluster map and
`merge_unit_size` parameter. -/
structure MergeResolver where
  references : List Ref
  cluster_map : CMap
  merge_unit_size : ℕ

/-- Source `MergeResolver.add`: the body of the source method is `pass`. -/
def MergeResolver.add (self : MergeResolver) (_new_observation : Ref ⊕ List Ref) :
    MergeResolver :=
  self

theorem has_common_block_comm (c1 c2 : Cluster) :
    c1.has_common_block c2 ↔ c2.has_common_block c1 := by
  unfold Cluster.has_common_block
  constructor
  · rintro ⟨n, hn, hne⟩
    exact ⟨n, by rwa [Finset.inter_comm], by rwa [Finset.inter_comm]⟩
  · rintro ⟨n, hn, hne⟩
    exact ⟨n, by rwa [Finset.inter_comm], by rwa [Finset.inter_comm]⟩

theorem weightsum_nonneg (score : Ref → Ref → α) (c1 c2 : Cluster) :
    0 ≤ Cluster.weightsum score c1 c2 := by
  unfold Cluster.weightsum
  split
  · exact le_max_left 0 _
  · exact le_refl 0

theorem weightsum_comm (score : Ref → Ref → α)
    (hsym : ∀ a b, score a b = score b a) (c1 c2 : Cluster) :
    Cluster.weightsum score c1 c2 = Cluster.weightsum score c2 c1 := by
  unfold Cluster.weightsum
  by_cases h : c1.has_common_block c2
  · rw [if_pos h, if_pos ((has_common_block_comm c1 c2).mp h)]
    congr 1
    rw [Finset.sum_comm]
    exact Finset.sum_congr rfl fun r2 _ => Finset.sum_congr rfl fun r1 _ => hsym r1 r2
  · rw [if_neg h, if_neg (fun h2 => h ((has_common_block_comm c1 c2).mpr h2))]

end EntiPy.ER

namespace EntiPy.ER

variable {α : Type} [LinearOrderedCommRing α]

/-- Claim C3: `Cluster.weightsum score c1 c2` is `0` when the two
clusters share no block, and otherwise is the clamp at zero of the sum
of pairwise scores over the Cartesian product of the member sets;
consequently it is always non-negative, and it is `0` whenever the
blocking-key value sets are disjoint at every shared key name,
regardless of the per-reference scores. -/
theorem weightsum_spec (score : Ref → Ref → α) (c1 c2 : Cluster) :
    (¬ c1.has_common_block c2 → Cluster.weightsum score c1 c2 = 0) ∧
    (c1.has_common_block c2 →
      Cluster.weightsum score c1 c2 =
        max 0 (∑ p in c1.references ×ˢ c2.references, score p.1 p.2)) ∧
    0 ≤ Cluster.weightsum score c1 c2 ∧
    ((∀ name ∈ c1.bk_names ∩ c2.bk_names,
        Disjoint (c1.bk_values name) (c2.bk_values name)) →
      Cluster.weightsum score c1 c2 = 0) := by
  refine ⟨fun h => ?_, fun h => ?_, weightsum_nonneg score c1 c2, fun h => ?_⟩
  · unfold Cluster.weightsum
    exact if_neg h
  · unfold Cluster.weightsum
    rw [if_pos h, Finset.sum_product]
  · unfold Cluster.weightsum
    refine if_neg ?_
    rintro ⟨n, hn, hne⟩
    exact Finset.not_disjoint_iff_nonempty_inter.mpr hne (h n hn)

/-- Two tiny clusters sharing the dummy block. -/
def blockCluA : Cluster := ⟨100, {⟨0, [("BK", "0")]⟩}⟩

/-- A cluster whose only blocking value differs from `blockCluA`'s. -/
def blockCluB : Cluster := ⟨101, {⟨1, [("BK", "1")]⟩}⟩

/-- Witness for claim C3, at two concrete singleton clusters with
disjoint blocking values and the constant score `1`: both implications
fire and the weightsum evaluates to `0`. -/
theorem weightsum_spec_witness :
    ¬ blockCluA.has_common_block blockCluB ∧
      Cluster.weightsum (fun _ _ => (1 : ℤ)) blockCluA blockCluB = 0 ∧
      (∀ name ∈ blockCluA.bk_names ∩ blockCluB.bk_names,
        Disjoint (blockCluA.bk_values name) (blockCluB.bk_values name)) ∧
      Cluster.weightsum (fun _ _ => (1 : ℤ)) blockCluA blockCluB = 0 :=
  ⟨by decide, (weightsum_spec (fun _ _ => (1 : ℤ)) blockCluA blockCluB).1 (by decide),
    by decide, (weightsum_spec (fun _ _ => (1 : ℤ)) blockCluA blockCluB).2.2.2 (by decide)⟩

/-- Claim C10: `has_common_block` is symmetric, and consequently
`Cluster.compare` and `Cluster.weightsum` are blocking-gated
identically in both directions: when the gate fails, all four values
are `0`. -/
theorem has_common_block_symm (score : Ref → Ref → α) (c1 c2 : Cluster) :
    (c1.has_common_block c2 ↔ c2.has_common_block c1) ∧
    (¬ c1.has_common_block c2 →
      Cluster.compare score c1 c2 = 0 ∧ Cluster.compare score c2 c1 = 0 ∧
      Cluster.weightsum score c1 c2 = 0 ∧ Cluster.weightsum score c2 c1 = 0) := by
  refine ⟨has_common_block_comm c1 c2, fun h => ?_⟩
  have h' : ¬ c2.has_common_block c1 := fun h2 => h ((has_common_block_comm c1 c2).mpr h2)
  exact ⟨if_neg h, if_neg h', if_neg h, if_neg h'⟩

/-- Witness for claim C10, at two concrete clusters with no common
block and the constant score `1`. -/
theorem has_common_block_symm_witness :
    ¬ blockCluA.has_common_block blockCluB ∧
      Cluster.compare (fun _ _ => (1 : ℤ)) blockCluA blockCluB = 0 ∧
      Cluster.compare (fun _ _ => (1 : ℤ)) blockCluB blockCluA = 0 ∧
      Cluster.weightsum (fun _ _ => (1 : ℤ)) blockCluA blockCluB = 0 ∧
      Cluster.weightsum (fun _ _ => (1 : ℤ)) blockCluB blockCluA = 0 :=
  ⟨by decide, (has_common_block_symm (fun _ _ => (1 : ℤ)) blockCluA blockCluB).2 (by decide)⟩

/-- Claim C9: `MergeResolver.add` is a no-op — for every resolver state
and every argument (one reference or a list of references), the
references queue and the cluster map are unchanged. -/
theorem mergeResolver_add_noop (self : MergeResolver) (new_observation : Ref ⊕ List Ref) :
    (self.add new_observation).references = self.references ∧
    (self.add new_observation).cluster_map = self.cluster_map ∧
    self.add new_observation = self :=
  ⟨rfl, rfl, rfl⟩

theorem getOid_eq_none_iff {k : ℕ} {m : CMap} :
    getOid k m = none ↔ k ∉ m.map Prod.fst := by
  induction m with
  | nil => simp [getOid]
  | cons e t ih =>
    simp only [getOid, List.map_cons, List.mem_cons]
    by_cases h : e.1 = k
    · simp [h]
    · rw [if_neg h, ih]
      constructor
      · intro hn hor
        rcases hor with h1 | h2
        · exact h h1.symm
        · exact hn h2
      · intro hn h2
        exact hn (Or.inr h2)

theorem mem_of_getOid_eq_some {k : ℕ} {c : Cluster} {m : CMap}
    (h : getOid k m = some c) : (k, c) ∈ m := by
  induction m with
  | nil => simp [getOid] at h
  | cons e t ih =>
    obtain ⟨k', c'⟩ := e
    by_cases he : k' = k
    · subst he
      simp [getOid] at h
      subst h
      exact List.mem_cons_self _ _
    · simp [getOid, he] at h
      exact List.mem_cons_of_mem _ (ih h)

theorem getOid_eq_some_of_mem {k : ℕ} {c : Cluster} {m : CMap}
    (hnd : (m.map Prod.fst).Nodup) (hm : (k, c) ∈ m) : getOid k m = some c := by
  induction m with
  | nil => cases hm
  | cons e t ih =>
    obtain ⟨k', c'⟩ := e
    simp only [List.map_cons, List.nodup_cons] at hnd
    rcases List.mem_cons.mp hm with heq | ht
    · cases heq
      simp [getOid]
    · have hk : k' ≠ k := by
        intro h
        subst h
        exact hnd.1 (List.mem_map.mpr ⟨(k', c), ht, rfl⟩)
      simp only [getOid, if_neg hk]
      exact ih hnd.2 ht

theorem entry_unique {k : ℕ} {c c' : Cluster} {m : CMap}
    (hnd : (m.map Prod.fst).Nodup) (h1 : (k, c) ∈ m) (h2 : (k, c') ∈ m) : c = c' := by
  have e1 := getOid_eq_some_of_mem hnd h1
  have e2 := getOid_eq_some_of_mem hnd h2
  rw [e1] at e2
  exact Option.some_inj.mp e2

theorem mem_delKey {e : ℕ × Cluster} {k : ℕ} {m : CMap} :
    e ∈ delKey k m ↔ e ∈ m ∧ e.1 ≠ k := by
  simp [delKey, List.mem_filter]

theorem delKey_sublist (k : ℕ) (m : CMap) : (delKey k m).Sublist m :=
  List.filter_sublist m

theorem nodup_keys_delKey {k : ℕ} {m : CMap} (hnd : (m.map Prod.fst).Nodup) :
    ((delKey k m).map Prod.fst).Nodup :=
  List.Nodup.sublist (List.Sublist.map Prod.fst (delKey_sublist k m)) hnd

theorem delKey_eq_of_not_mem {k : ℕ} {m : CMap} (h : k ∉ m.map Prod.fst) :
    delKey k m = m := by
  unfold delKey
  refine List.filter_eq_self.mpr fun e he => ?_
  simp only [decide_eq_true_eq]
  intro heq
  exact h (List.mem_map.mpr ⟨e, he, heq⟩)

theorem length_delKey {k : ℕ} {c : Cluster} {m : CMap}
    (hnd : (m.map Prod.fst).Nodup) (hm : (k, c) ∈ m) :
    (delKey k m).length + 1 = m.length := by
  induction m with
  | nil => cases hm
  | cons e t ih =>
    obtain ⟨k', c'⟩ := e
    simp only [List.map_cons, List.nodup_cons] at hnd
    rcases List.mem_cons.mp hm with heq | ht
    · cases heq
      have hdrop : delKey k ((k, c) :: t) = delKey k t := by
        unfold delKey
        exact List.filter_cons_of_neg (by simp)
      rw [hdrop, delKey_eq_of_not_mem hnd.1]
      simp
    · have hk : k' ≠ k := by
        intro h
        subst h
        exact hnd.1 (List.mem_map.mpr ⟨(k', c), ht, rfl⟩)
      have hkeep : delKey k ((k', c') :: t) = (k', c') :: delKey k t := by
        unfold delKey
        exact List.filter_cons_of_pos (by simpa using hk)
      rw [hkeep]
      simp only [List.length_cons]
      rw [← ih hnd.2 ht]

theorem delKey_append (k : ℕ) (m1 m2 : CMap) :
    delKey k (m1 ++ m2) = delKey k m1 ++ delKey k m2 :=
  List.filter_append m1 m2

theorem bestPair_mem (p : Pair α) (l : List (Pair α)) : bestPair p l ∈ p :: l := by
  induction l generalizing p with
  | nil => simp [bestPair]
  | cons q t ih =>
    unfold bestPair at ih ⊢
    simp only [List.foldl_cons]
    rcases List.mem_cons.mp (ih (pickBetter p q)) with h1 | h2
    · rw [h1]
      unfold pickBetter
      split
      · exact List.mem_cons_of_mem _ (List.mem_cons_self _ _)
      · exact List.mem_cons_self _ _
    · exact List.mem_cons_of_mem _ (List.mem_cons_of_mem _ h2)

theorem le_bestPair (p : Pair α) (l : List (Pair α)) :
    ∀ q ∈ p :: l, q.possible_improvement ≤ (bestPair p l).possible_improvement := by
  induction l generalizing p with
  | nil =>
    intro q hq
    rcases List.mem_cons.mp hq with h | h
    · subst h
      exact le_refl _
    · cases h
  | cons r t ih =>
    intro q hq
    unfold bestPair
    simp only [List.foldl_cons]
    have hp : p.possible_improvement ≤ (pickBetter p r).possible_improvement := by
      unfold pickBetter
      split
      · exact le_of_lt (by assumption)
      · exact le_refl _
    have hr : r.possible_improvement ≤ (pickBetter p r).possible_improvement := by
      unfold pickBetter
      split
      · exact le_refl _
      · exact le_of_not_lt (by assumption)
    have hhead := ih (pickBetter p r) (pickBetter p r) (List.mem_cons_self _ _)
    rcases List.mem_cons.mp hq with h | hq2
    · subst h
      exact le_trans hp hhead
    · rcases List.mem_cons.mp hq2 with h | h3
      · subst h
        exact le_trans hr hhead
      · exact ih (pickBetter p r) q (List.mem_cons_of_mem _ h3)

theorem mem_passCandidates {score : Ref → Ref → α} {m : CMap} {q : Pair α} :
    q ∈ passCandidates score m ↔
      ∃ e1 ∈ m, ∃ e2 ∈ m, e1.1 < e2.1 ∧ 0 < Cluster.weightsum score e1.2 e2.2 ∧
        q = mkPair e1.1 e2.1 (Cluster.weightsum score e1.2 e2.2) := by
  unfold passCandidates
  simp only [List.mem_flatMap, List.mem_filterMap]
  constructor
  · rintro ⟨e1, h1, e2, h2, hif⟩
    split at hif
    · next hc => exact ⟨e1, h1, e2, h2, hc.1, hc.2, (Option.some_inj.mp hif).symm⟩
    · cases hif
  · rintro ⟨e1, h1, e2, h2, hlt, hpos, rfl⟩
    exact ⟨e1, h1, e2, h2, by rw [if_pos ⟨hlt, hpos⟩]⟩

theorem passCandidates_eq_nil_iff {score : Ref → Ref → α} {m : CMap} :
    passCandidates score m = [] ↔
      ∀ e1 ∈ m, ∀ e2 ∈ m, e1.1 < e2.1 → ¬ (0 < Cluster.weightsum score e1.2 e2.2) := by
  rw [List.eq_nil_iff_forall_not_mem]
  constructor
  · intro h e1 h1 e2 h2 hlt hpos
    exact h _ (mem_passCandidates.mpr ⟨e1, h1, e2, h2, hlt, hpos, rfl⟩)
  · intro h q hq
    obtain ⟨e1, h1, e2, h2, hlt, hpos, _⟩ := mem_passCandidates.mp hq
    exact h e1 h1 e2 h2 hlt hpos

theorem mem_pairSet {score : Ref → Ref → α} {active m : CMap} {q : Pair α} :
    q ∈ pairSet score active m ↔
      ∃ a ∈ active, ∃ e ∈ m, a.1 ≠ e.1 ∧ 0 < Cluster.weightsum score a.2 e.2 ∧
        q = mkPair a.1 e.1 (Cluster.weightsum score a.2 e.2) := by
  unfold pairSet
  simp only [List.mem_flatMap, List.mem_filterMap]
  constructor
  · rintro ⟨a, ha, e, he, hif⟩
    split at hif
    · next hc => exact ⟨a, ha, e, he, hc.1, hc.2, (Option.some_inj.mp hif).symm⟩
    · cases hif
  · rintro ⟨a, ha, e, he, hne, hpos, rfl⟩
    exact ⟨a, ha, e, he, by rw [if_pos ⟨hne, hpos⟩]⟩

theorem pairSet_eq_nil_iff {score : Ref → Ref → α} {active m : CMap} :
    pairSet score active m = [] ↔
      ∀ a ∈ active, ∀ e ∈ m, a.1 ≠ e.1 → ¬ (0 < Cluster.weightsum score a.2 e.2) := by
  rw [List.eq_nil_iff_forall_not_mem]
  constructor
  · intro h a ha e he hne hpos
    exact h _ (mem_pairSet.mpr ⟨a, ha, e, he, hne, hpos, rfl⟩)
  · intro h q hq
    obtain ⟨a, ha, e, he, hne, hpos, _⟩ := mem_pairSet.mp hq
    exact h a ha e he hne hpos

theorem clusterPass_of_nil {score : Ref → Ref → α} {st : ℕ × CMap}
    (h : passCandidates score st.2 = []) : clusterPass score st = (st, true) := by
  unfold clusterPass
  rw [h]

theorem clusterPass_pos {score : Ref → Ref → α} {st : ℕ × CMap} {p : Pair α}
    {ps : List (Pair α)} (hwf : WF st) (h : passCandidates score st.2 = p :: ps) :
    ∃ o1 o2 c1 c2,
      (o1, c1) ∈ st.2 ∧ (o2, c2) ∈ st.2 ∧ o1 < o2 ∧
      0 < Cluster.weightsum score c1 c2 ∧
      (∀ e1 ∈ st.2, ∀ e2 ∈ st.2, e1.1 < e2.1 →
        Cluster.weightsum score e1.2 e2.2 ≤ Cluster.weightsum score c1 c2) ∧
      clusterPass score st =
        ((st.1 + 1, delKey o2 (delKey o1 st.2) ++
          [(st.1, Cluster.merge st.1 c1 c2)]), false) := by
  have hmem : bestPair p ps ∈ passCandidates score st.2 := by
    rw [h]
    exact bestPair_mem p ps
  obtain ⟨e1, h1, e2, h2, hlt, hpos, hbest⟩ := mem_passCandidates.mp hmem
  have hb1 : (bestPair p ps).cluster_oid_1 = e1.1 := by
    rw [hbest]
    simp [mkPair, min_eq_left (le_of_lt hlt)]
  have hb2 : (bestPair p ps).cluster_oid_2 = e2.1 := by
    rw [hbest]
    simp [mkPair, max_eq_right (le_of_lt hlt)]
  refine ⟨e1.1, e2.1, e1.2, e2.2, h1, h2, hlt, hpos, ?_, ?_⟩
  · intro f1 hf1 f2 hf2 hflt
    by_cases hfp : 0 < Cluster.weightsum score f1.2 f2.2
    · have hin : mkPair f1.1 f2.1 (Cluster.weightsum score f1.2 f2.2) ∈
          passCandidates score st.2 :=
        mem_passCandidates.mpr ⟨f1, hf1, f2, hf2, hflt, hfp, rfl⟩
      rw [h] at hin
      have hle := le_bestPair p ps _ hin
      rw [hbest] at hle
      simpa [mkPair] using hle
    · exact le_trans (le_of_not_lt hfp) (le_of_lt hpos)
  · unfold clusterPass
    rw [h]
    dsimp only
    rw [hb1, hb2, getOid_eq_some_of_mem hwf.1 h1, getOid_eq_some_of_mem hwf.1 h2]

theorem clusterPass_true_eq {score : Ref → Ref → α} {st st' : ℕ × CMap}
    (h : clusterPass score st = (st', true)) : st' = st := by
  cases hc : passCandidates score st.2 with
  | nil =>
    rw [clusterPass_of_nil hc] at h
    exact (congrArg Prod.fst h).symm
  | cons p ps =>
    unfold clusterPass at h
    rw [hc] at h
    dsimp only at h
    cases g1 : getOid (bestPair p ps).cluster_oid_1 st.2 with
    | none =>
      rw [g1] at h
      cases g2 : getOid (bestPair p ps).cluster_oid_2 st.2 <;> rw [g2] at h <;>
        exact (congrArg Prod.fst h).symm
    | some c1 =>
      rw [g1] at h
      cases g2 : getOid (bestPair p ps).cluster_oid_2 st.2 with
      | none =>
        rw [g2] at h
        exact (congrArg Prod.fst h).symm
      | some c2 =>
        rw [g2] at h
        cases congrArg Prod.snd h

theorem WF_clusterPass {score : Ref → Ref → α} {st : ℕ × CMap} (hwf : WF st) :
    WF (clusterPass score st).1 := by
  cases hc : passCandidates score st.2 with
  | nil =>
    rw [clusterPass_of_nil hc]
    exact hwf
  | cons p ps =>
    obtain ⟨o1, o2, c1, c2, h1, h2, hlt, hpos, _, heq⟩ := clusterPass_pos hwf hc
    rw [heq]
    unfold WF
    dsimp only
    have hsub : ((delKey o2 (delKey o1 st.2)).map Prod.fst).Sublist (st.2.map Prod.fst) :=
      List.Sublist.map Prod.fst (List.Sublist.trans (delKey_sublist o2 _) (delKey_sublist o1 _))
    constructor
    · simp only [List.map_append, List.map_cons, List.map_nil]

      refine List.Nodup.append (nodup_keys_delKey (nodup_keys_delKey hwf.1))
        (List.nodup_singleton _) ?_
      intro k hk hk'
      have hkm : k ∈ st.2.map Prod.fst := hsub.mem hk
      have : k < st.1 := hwf.2 k hkm
      simp only [List.mem_singleton] at hk'
      omega
    · intro k hk
      simp only [List.map_append, List.map_cons, List.map_nil, List.mem_append,
        List.mem_singleton] at hk
      rcases hk with hk | hk
      · exact Nat.lt_succ_of_lt (hwf.2 k (hsub.mem hk))
      · omega

theorem length_clusterPass_of_false {score : Ref → Ref → α} {st st' : ℕ × CMap}
    (hwf : WF st) (h : clusterPass score st = (st', false)) :
    st'.2.length + 1 = st.2.length ∧ 1 ≤ st'.2.length := by
  cases hc : passCandidates score st.2 with
  | nil =>
    rw [clusterPass_of_nil hc] at h
    cases congrArg Prod.snd h
  | cons p ps =>
    obtain ⟨o1, o2, c1, c2, h1, h2, hlt, hpos, _, heq⟩ := clusterPass_pos hwf hc
    rw [heq] at h
    have hst : st'.2 = delKey o2 (delKey o1 st.2) ++
        [(st.1, Cluster.merge st.1 c1 c2)] :=
      (congrArg Prod.snd (congrArg Prod.fst h)).symm
    have l1 : (delKey o1 st.2).length + 1 = st.2.length := length_delKey hwf.1 h1
    have hm2 : (o2, c2) ∈ delKey o1 st.2 :=
      mem_delKey.mpr ⟨h2, by dsimp only; omega⟩
    have l2 : (delKey o2 (delKey o1 st.2)).length + 1 = (delKey o1 st.2).length :=
      length_delKey (nodup_keys_delKey hwf.1) hm2
    rw [hst]
    simp only [List.length_append, List.length_cons, List.length_nil]
    omega

end EntiPy.ER

namespace EntiPy.ER

variable {α : Type} [LinearOrderedCommRing α]

instance (st : ℕ × CMap) : Decidable (WF st) := by
  unfold WF
  infer_instance

/-- Claim C5: `_cluster_pass` computes weightsums over all unordered
pairs of distinct clusters of the map and keeps the strictly positive
ones; with no positive pair it returns the map unchanged together with
`optimal = true`; otherwise it removes the two clusters of a
maximum-weightsum pair, inserts their merged cluster (whose reference
set is the union of the two), and reports `optimal = false`. -/
theorem clusterPass_spec (score : Ref → Ref → α) (st : ℕ × CMap) (hwf : WF st) :
    ((∀ e1 ∈ st.2, ∀ e2 ∈ st.2, e1.1 < e2.1 →
        ¬ (0 < Cluster.weightsum score e1.2 e2.2)) →
      clusterPass score st = (st, true)) ∧
    ((∃ e1 ∈ st.2, ∃ e2 ∈ st.2, e1.1 < e2.1 ∧ 0 < Cluster.weightsum score e1.2 e2.2) →
      ∃ o1 o2 c1 c2,
        (o1, c1) ∈ st.2 ∧ (o2, c2) ∈ st.2 ∧ o1 < o2 ∧
        0 < Cluster.weightsum score c1 c2 ∧
        (∀ e1 ∈ st.2, ∀ e2 ∈ st.2, e1.1 < e2.1 →
          Cluster.weightsum score e1.2 e2.2 ≤ Cluster.weightsum score c1 c2) ∧
        (Cluster.merge st.1 c1 c2).references = c1.references ∪ c2.references ∧
        clusterPass score st =
          ((st.1 + 1, delKey o2 (delKey o1 st.2) ++
            [(st.1, Cluster.merge st.1 c1 c2)]), false)) := by
  constructor
  · intro h
    exact clusterPass_of_nil (passCandidates_eq_nil_iff.mpr h)
  · rintro ⟨e1, h1, e2, h2, hlt, hpos⟩
    cases hc : passCandidates score st.2 with
    | nil =>
      exact absurd hpos (passCandidates_eq_nil_iff.mp hc e1 h1 e2 h2 hlt)
    | cons p ps =>
      obtain ⟨o1, o2, c1, c2, m1, m2, hlt', hpos', hmax, heq⟩ := clusterPass_pos hwf hc
      exact ⟨o1, o2, c1, c2, m1, m2, hlt', hpos', hmax, rfl, heq⟩

/-- A singleton cluster on the dummy block holding the reference with
id 0. -/
def sharedCluA : Cluster := ⟨0, {⟨0, [("BK", "0")]⟩}⟩

/-- A singleton cluster on the dummy block holding the reference with
id 1. -/
def sharedCluB : Cluster := ⟨1, {⟨1, [("BK", "0")]⟩}⟩

/-- The constant integer score 1. -/
def scoreOneZ : Ref → Ref → ℤ := fun _ _ => 1

/-- A well-formed two-cluster state with a positive pair. -/
def passSt : ℕ × CMap := (10, [(0, sharedCluA), (1, sharedCluB)])

/-- Witness for claim C5, at a concrete two-cluster map with one
strictly positive pair. -/
theorem clusterPass_spec_witness :
    ∃ o1 o2 c1 c2,
      (o1, c1) ∈ passSt.2 ∧ (o2, c2) ∈ passSt.2 ∧ o1 < o2 ∧
      0 < Cluster.weightsum scoreOneZ c1 c2 ∧
      (∀ e1 ∈ passSt.2, ∀ e2 ∈ passSt.2, e1.1 < e2.1 →
        Cluster.weightsum scoreOneZ e1.2 e2.2 ≤ Cluster.weightsum scoreOneZ c1 c2) ∧
      (Cluster.merge passSt.1 c1 c2).references = c1.references ∪ c2.references ∧
      clusterPass scoreOneZ passSt =
        ((passSt.1 + 1, delKey o2 (delKey o1 passSt.2) ++
          [(passSt.1, Cluster.merge passSt.1 c1 c2)]), false) :=
  (clusterPass_spec scoreOneZ passSt (by decide)).2
    ⟨(0, sharedCluA), by decide, (1, sharedCluB), by decide, by decide, by decide⟩

theorem clusterSolveAux_spec {score : Ref → Ref → α} (fuel : ℕ) :
    ∀ (st : ℕ × CMap) (b : Bool), WF st → st.2.length ≤ fuel →
      WF (clusterSolveAux score fuel st b).1 ∧
      (clusterPass score (clusterSolveAux score fuel st b).1).2 = true ∧
      (clusterSolveAux score fuel st b).1.2.length ≤ st.2.length ∧
      (1 ≤ st.2.length → 1 ≤ (clusterSolveAux score fuel st b).1.2.length) := by
  induction fuel with
  | zero =>
    intro st b hwf hlen
    have hnil : st.2 = [] := List.length_eq_zero.mp (Nat.le_zero.mp hlen)
    have hcand : passCandidates score st.2 = [] := by
      rw [hnil]
      rfl
    simp only [clusterSolveAux]
    refine ⟨hwf, ?_, le_refl _, ?_⟩
    · rw [clusterPass_of_nil hcand]
    · intro h1
      rw [hnil] at h1
      simp at h1
  | succ n ih =>
    intro st b hwf hlen
    unfold clusterSolveAux
    cases hp : clusterPass score st with
    | mk st' opt =>
      cases opt with
      | true =>
        have hst : st' = st := clusterPass_true_eq hp
        subst hst
        dsimp only
        refine ⟨hwf, ?_, le_refl _, fun h => h⟩
        rw [hp]
      | false =>
        dsimp only
        have hwf' : WF st' := by
          have hh : WF (clusterPass score st).1 := WF_clusterPass hwf
          rw [hp] at hh
          exact hh
        obtain ⟨hlen', hone⟩ := length_clusterPass_of_false hwf hp
        obtain ⟨w1, w2, w3, w4⟩ := ih st' true hwf' (by omega)
        exact ⟨w1, w2, by omega, fun _ => by omega⟩

/-- Claim C6: `_cluster_solve` terminates on every finite cluster map —
each pass that reports `optimal = false` shrinks the map by exactly one
cluster, and the iteration with `length` fuel reaches a state on which
`_cluster_pass` reports `optimal = true`, after at most
`initial count - 1` merges (a non-empty map stays non-empty). -/
theorem clusterSolve_terminates (score : Ref → Ref → α) (st : ℕ × CMap) (hwf : WF st) :
    (∀ st', clusterPass score st = (st', false) → st'.2.length + 1 = st.2.length) ∧
    (clusterPass score (clusterSolve score st).1).2 = true ∧
    (clusterSolve score st).1.2.length ≤ st.2.length ∧
    (1 ≤ st.2.length → 1 ≤ (clusterSolve score st).1.2.length) := by
  obtain ⟨_, h2, h3, h4⟩ :=
    @clusterSolveAux_spec α _ score st.2.length st false hwf (le_refl _)
  exact ⟨fun st' hp => (length_clusterPass_of_false hwf hp).1, h2, h3, h4⟩

/-- Witness for claim C6, at a concrete well-formed two-cluster state. -/
theorem clusterSolve_terminates_witness :
    (∀ st', clusterPass scoreOneZ passSt = (st', false) →
      st'.2.length + 1 = passSt.2.length) ∧
    (clusterPass scoreOneZ (clusterSolve scoreOneZ passSt).1).2 = true ∧
    (clusterSolve scoreOneZ passSt).1.2.length ≤ passSt.2.length ∧
    (1 ≤ passSt.2.length → 1 ≤ (clusterSolve scoreOneZ passSt).1.2.length) :=
  clusterSolve_terminates scoreOneZ passSt (by decide)

theorem WF_replace {st : ℕ × CMap} (o1 o2 : ℕ) (c : Cluster) (hwf : WF st) :
    WF (st.1 + 1, delKey o2 (delKey o1 st.2) ++ [(st.1, c)]) := by
  have hsub : ((delKey o2 (delKey o1 st.2)).map Prod.fst).Sublist (st.2.map Prod.fst) :=
    List.Sublist.map Prod.fst (List.Sublist.trans (delKey_sublist o2 _) (delKey_sublist o1 _))
  constructor
  · simp only [List.map_append, List.map_cons, List.map_nil]
    refine List.Nodup.append (nodup_keys_delKey (nodup_keys_delKey hwf.1))
      (List.nodup_singleton _) ?_
    intro k hk hk'
    have : k < st.1 := hwf.2 k (hsub.mem hk)
    simp only [List.mem_singleton] at hk'
    omega
  · intro k hk
    simp only [List.map_append, List.map_cons, List.map_nil, List.mem_append,
      List.mem_singleton] at hk
    rcases hk with hk | hk
    · exact Nat.lt_succ_of_lt (hwf.2 k (hsub.mem hk))
    · omega

theorem clusterSolve_two_pos {score : Ref → Ref → α} {ctr o1 o2 : ℕ} {c1 c2 : Cluster}
    (hlt : o1 < o2) (ho1 : o1 < ctr) (ho2 : o2 < ctr)
    (hpos : 0 < Cluster.weightsum score c1 c2) :
    clusterSolve score (ctr, [(o1, c1), (o2, c2)]) =
      ((ctr + 1, [(ctr, Cluster.merge ctr c1 c2)]), true) := by
  have hwf : WF (ctr, [(o1, c1), (o2, c2)]) := by
    constructor
    · simp only [List.map_cons, List.map_nil]
      rw [List.nodup_cons]
      refine ⟨?_, List.nodup_singleton _⟩
      simp only [List.mem_singleton]
      omega
    · intro k hk
      simp only [List.map_cons, List.map_nil, List.mem_cons, List.mem_singleton,
        List.not_mem_nil, or_false] at hk
      rcases hk with rfl | rfl <;> omega
  have hmem : mkPair o1 o2 (Cluster.weightsum score c1 c2) ∈
      passCandidates score [(o1, c1), (o2, c2)] :=
    mem_passCandidates.mpr ⟨(o1, c1), by simp, (o2, c2), by simp, hlt, hpos, rfl⟩
  cases hc : passCandidates score [(o1, c1), (o2, c2)] with
  | nil =>
    rw [hc] at hmem
    cases hmem
  | cons p ps =>
    obtain ⟨o1', o2', c1', c2', h1, h2, hlt', hpos', _, heq⟩ :=
      clusterPass_pos hwf hc
    have hid : o1' = o1 ∧ c1' = c1 ∧ o2' = o2 ∧ c2' = c2 := by
      simp only [List.mem_cons, List.mem_singleton, List.not_mem_nil, or_false,
        Prod.mk.injEq] at h1 h2
      rcases h1 with ⟨ha, hb⟩ | ⟨ha, hb⟩ <;> rcases h2 with ⟨hc', hd⟩ | ⟨hc', hd⟩ <;>
        subst ha <;> subst hc' <;> first
          | (exact ⟨rfl, hb, rfl, hd⟩)
          | omega
    obtain ⟨rfl, rfl, rfl, rfl⟩ := hid
    have hd1 : delKey o1' ([(o1', c1'), (o2', c2')] : CMap) = [(o2', c2')] := by
      have hne : (o2' : ℕ) ≠ o1' := by omega
      simp [delKey, hne]
    have hd2 : delKey o2' ([(o2', c2')] : CMap) = [] := by
      simp [delKey]
    have hpass1 : clusterPass score
        (ctr + 1, [(ctr, Cluster.merge ctr c1' c2')]) =
        ((ctr + 1, [(ctr, Cluster.merge ctr c1' c2')]), true) := by
      refine clusterPass_of_nil (passCandidates_eq_nil_iff.mpr ?_)
      intro e1 he1 e2 he2 hlt12
      simp only [List.mem_singleton] at he1 he2
      subst he1
      subst he2
      intro _
      exact absurd hlt12 (lt_irrefl _)
    show clusterSolveAux score 2 (ctr, [(o1', c1'), (o2', c2')]) false = _
    unfold clusterSolveAux
    rw [heq]
    dsimp only
    rw [hd1, hd2, List.nil_append]
    unfold clusterSolveAux
    rw [hpass1]

theorem clusterSolve_two_neg {score : Ref → Ref → α} {ctr o1 o2 : ℕ} {c1 c2 : Cluster}
    (hlt : o1 < o2) (hneg : ¬ 0 < Cluster.weightsum score c1 c2) :
    clusterSolve score (ctr, [(o1, c1), (o2, c2)]) =
      ((ctr, [(o1, c1), (o2, c2)]), false) := by
  have hc : passCandidates score ([(o1, c1), (o2, c2)] : CMap) = [] := by
    refine passCandidates_eq_nil_iff.mpr ?_
    intro e1 he1 e2 he2 hlt12
    simp only [List.mem_cons, List.mem_singleton, List.not_mem_nil, or_false] at he1 he2
    rcases he1 with rfl | rfl <;> rcases he2 with rfl | rfl <;> dsimp only at hlt12 ⊢
    · exact absurd hlt12 (lt_irrefl _)
    · exact hneg
    · omega
    · exact absurd hlt12 (lt_irrefl _)
  have hpass := @clusterPass_of_nil α _ score (ctr, [(o1, c1), (o2, c2)]) hc
  show clusterSolveAux score 2 (ctr, [(o1, c1), (o2, c2)]) false = _
  unfold clusterSolveAux
  rw [hpass]

theorem mergeBack_single_fresh {m : CMap} {ctr o1 o2 : ℕ} {mc : Cluster}
    (hfresh : ctr ∉ m.map Prod.fst) (h1 : o1 ≠ ctr) (h2 : o2 ≠ ctr) :
    mergeBack [(ctr, mc)] o1 o2 m =
      (delKey o2 (delKey o1 m) ++ [(ctr, mc)], [(ctr, mc)]) := by
  have hg : getOid ctr m = none := getOid_eq_none_iff.mpr hfresh
  have hg1 : getOid o1 ([(ctr, mc)] : CMap) = none := by
    simp [getOid, Ne.symm h1]
  have hg2 : getOid o2 ([(ctr, mc)] : CMap) = none := by
    simp [getOid, Ne.symm h2]
  unfold mergeBack
  simp only [List.foldl_cons, List.foldl_nil, hg, Option.isSome_none, Bool.false_eq_true,
    if_false, hg1, hg2]
  rw [delKey_append, delKey_append]
  have hk1 : delKey o1 ([(ctr, mc)] : CMap) = [(ctr, mc)] :=
    delKey_eq_of_not_mem (by simpa using h1)
  have hk2 : delKey o2 ([(ctr, mc)] : CMap) = [(ctr, mc)] :=
    delKey_eq_of_not_mem (by simpa using h2)
  rw [hk1, hk2, List.nil_append]

theorem mergeBack_two_existing {m : CMap} {o1 o2 : ℕ} {c1 c2 : Cluster}
    (h1 : getOid o1 m = some c1) (h2 : getOid o2 m = some c2) (hne : o1 ≠ o2) :
    mergeBack [(o1, c1), (o2, c2)] o1 o2 m = (m, []) := by
  unfold mergeBack
  simp only [List.foldl_cons, List.foldl_nil, h1, h2, Option.isSome_some, if_true]
  simp [getOid, hne, Ne.symm hne]

theorem streamLoop_step {score : Ref → Ref → α} {n : ℕ} {active : CMap} {st : ℕ × CMap}
    {p : Pair α} {ps : List (Pair α)}
    (hwf : WF st) (hsub : ∀ e ∈ active, e ∈ st.2)
    (hps : pairSet score active st.2 = p :: ps) :
    ∃ o1 o2 c1 c2,
      (o1, c1) ∈ st.2 ∧ (o2, c2) ∈ st.2 ∧ o1 < o2 ∧
      (0 < Cluster.weightsum score c1 c2 ∨ 0 < Cluster.weightsum score c2 c1) ∧
      (∃ a ∈ active, a.1 = o1 ∨ a.1 = o2) ∧
      (0 < Cluster.weightsum score c1 c2 →
        streamLoop score (n + 1) active st =
          streamLoop score n [(st.1, Cluster.merge st.1 c1 c2)]
            (st.1 + 1, delKey o2 (delKey o1 st.2) ++
              [(st.1, Cluster.merge st.1 c1 c2)])) ∧
      (¬ 0 < Cluster.weightsum score c1 c2 →
        streamLoop score (n + 1) active st = streamLoop score n [] st) := by
  have hmem : bestPair p ps ∈ pairSet score active st.2 := by
    rw [hps]
    exact bestPair_mem p ps
  obtain ⟨a, ha, e, he, hane, hapos, hbest⟩ := mem_pairSet.mp hmem
  have hast : ((a.1, a.2) : ℕ × Cluster) ∈ st.2 := hsub a ha
  have g_a : getOid a.1 st.2 = some a.2 := getOid_eq_some_of_mem hwf.1 hast
  have g_e : getOid e.1 st.2 = some e.2 := getOid_eq_some_of_mem hwf.1 he
  have ho_a : a.1 < st.1 := hwf.2 _ (List.mem_map.mpr ⟨(a.1, a.2), hast, rfl⟩)
  have ho_e : e.1 < st.1 := hwf.2 _ (List.mem_map.mpr ⟨e, he, rfl⟩)
  have hfresh : st.1 ∉ st.2.map Prod.fst := fun h => absurd (hwf.2 _ h) (lt_irrefl _)
  rcases lt_or_gt_of_ne hane with hlt | hlt
  · have hb1 : (bestPair p ps).cluster_oid_1 = a.1 := by
      rw [hbest]
      simp [mkPair, min_eq_left (le_of_lt hlt)]
    have hb2 : (bestPair p ps).cluster_oid_2 = e.1 := by
      rw [hbest]
      simp [mkPair, max_eq_right (le_of_lt hlt)]
    refine ⟨a.1, e.1, a.2, e.2, hast, he, hlt, Or.inl hapos, ⟨a, ha, Or.inl rfl⟩, ?_, ?_⟩
    · intro hpos
      conv_lhs => unfold streamLoop
      rw [hps]
      dsimp only
      rw [hb1, hb2, g_a, g_e]
      dsimp only
      rw [clusterSolve_two_pos hlt ho_a ho_e hpos]
      dsimp only
      rw [mergeBack_single_fresh hfresh (by omega) (by omega)]
    · intro hneg
      conv_lhs => unfold streamLoop
      rw [hps]
      dsimp only
      rw [hb1, hb2, g_a, g_e]
      dsimp only
      rw [clusterSolve_two_neg hlt hneg]
      dsimp only
      rw [mergeBack_two_existing g_a g_e (by omega)]
  · have hb1 : (bestPair p ps).cluster_oid_1 = e.1 := by
      rw [hbest]
      simp [mkPair, min_eq_right (le_of_lt hlt)]
    have hb2 : (bestPair p ps).cluster_oid_2 = a.1 := by
      rw [hbest]
      simp [mkPair, max_eq_left (le_of_lt hlt)]
    refine ⟨e.1, a.1, e.2, a.2, he, hast, hlt, Or.inr hapos, ⟨a, ha, Or.inr rfl⟩, ?_, ?_⟩
    · intro hpos
      conv_lhs => unfold streamLoop
      rw [hps]
      dsimp only
      rw [hb1, hb2, g_e, g_a]
      dsimp only
      rw [clusterSolve_two_pos hlt ho_e ho_a hpos]
      dsimp only
      rw [mergeBack_single_fresh hfresh (by omega) (by omega)]
    · intro hneg
      conv_lhs => unfold streamLoop
      rw [hps]
      dsimp only
      rw [hb1, hb2, g_e, g_a]
      dsimp only
      rw [clusterSolve_two_neg hlt hneg]
      dsimp only
      rw [mergeBack_two_existing g_e g_a (by omega)]

theorem streamLoop_localOpt {score : Ref → Ref → α}
    (hsym : ∀ a b, score a b = score b a) :
    ∀ (fuel : ℕ) (active : CMap) (st : ℕ × CMap),
      WF st → st.2.length ≤ fuel → (∀ e ∈ active, e ∈ st.2) → active.length ≤ 1 →
      (∀ e1 ∈ st.2, ∀ e2 ∈ st.2, e1.1 ≠ e2.1 →
        0 < Cluster.weightsum score e1.2 e2.2 →
        e1.1 ∈ active.map Prod.fst ∨ e2.1 ∈ active.map Prod.fst) →
      LocalOpt score (streamLoop score fuel active st).2 ∧
      WF (streamLoop score fuel active st) := by
  intro fuel
  induction fuel with
  | zero =>
    intro active st hwf hfuel hsub hlen hinv
    have hnil : st.2 = [] := List.length_eq_zero.mp (Nat.le_zero.mp hfuel)
    simp only [streamLoop]
    refine ⟨?_, hwf⟩
    unfold LocalOpt
    intro e1 he1
    rw [hnil] at he1
    cases he1
  | succ n ih =>
    intro active st hwf hfuel hsub hlen hinv
    cases hps : pairSet score active st.2 with
    | nil =>
      have hexit : streamLoop score (n + 1) active st = st := by
        conv_lhs => unfold streamLoop
        rw [hps]
      rw [hexit]
      refine ⟨?_, hwf⟩
      unfold LocalOpt
      intro e1 he1 e2 he2 hne hpos
      rcases hinv e1 he1 e2 he2 hne hpos with hk | hk
      · obtain ⟨a, ha, hae⟩ := List.mem_map.mp hk
        have hast : a ∈ st.2 := hsub a ha
        have hast' : ((e1.1, a.2) : ℕ × Cluster) ∈ st.2 := by
          rw [← hae]
          exact hast
        have haeq : a.2 = e1.2 := entry_unique hwf.1 hast' he1
        refine pairSet_eq_nil_iff.mp hps a ha e2 he2 ?_ ?_
        · rw [hae]
          exact hne
        · rw [haeq]
          exact hpos
      · obtain ⟨a, ha, hae⟩ := List.mem_map.mp hk
        have hast : a ∈ st.2 := hsub a ha
        have hast' : ((e2.1, a.2) : ℕ × Cluster) ∈ st.2 := by
          rw [← hae]
          exact hast
        have haeq : a.2 = e2.2 := entry_unique hwf.1 hast' he2
        refine pairSet_eq_nil_iff.mp hps a ha e1 he1 ?_ ?_
        · rw [hae]
          exact hne.symm
        · rw [haeq, weightsum_comm score hsym]
          exact hpos
    | cons p ps =>
      obtain ⟨o1, o2, c1, c2, m1, m2, hlt, hor, ⟨a, ha, haor⟩, heqpos, _⟩ :=
        streamLoop_step hwf hsub hps
      have hpos : 0 < Cluster.weightsum score c1 c2 := by
        rcases hor with h | h
        · exact h
        · rwa [weightsum_comm score hsym c1 c2]
      have heq := heqpos hpos
      rw [heq]
      have hkeys : ∀ k ∈ active.map Prod.fst, k = a.1 := by
        intro k hk
        obtain ⟨x, hx, rfl⟩ := List.mem_map.mp hk
        cases active with
        | nil => cases hx
        | cons y t =>
          cases t with
          | nil =>
            simp only [List.mem_singleton] at hx ha
            rw [hx, ha]
          | cons z t2 => simp at hlen
      have hwf' := WF_replace o1 o2 (Cluster.merge st.1 c1 c2) hwf
      have l1 : (delKey o1 st.2).length + 1 = st.2.length := length_delKey hwf.1 m1
      have hm2' : (o2, c2) ∈ delKey o1 st.2 :=
        mem_delKey.mpr ⟨m2, by dsimp only; omega⟩
      have l2 : (delKey o2 (delKey o1 st.2)).length + 1 = (delKey o1 st.2).length :=
        length_delKey (nodup_keys_delKey hwf.1) hm2'
      refine ih [(st.1, Cluster.merge st.1 c1 c2)]
        (st.1 + 1, delKey o2 (delKey o1 st.2) ++ [(st.1, Cluster.merge st.1 c1 c2)])
        hwf' ?_ ?_ (by simp) ?_
      · dsimp only
        simp only [List.length_append, List.length_cons, List.length_nil]
        omega
      · intro f hf
        simp only [List.mem_singleton] at hf
        subst hf
        exact List.mem_append_right _ (List.mem_singleton.mpr rfl)
      · intro f1 hf1 f2 hf2 hne hp
        dsimp only at hf1 hf2
        rcases List.mem_append.mp hf1 with hf1' | hf1'
        · rcases List.mem_append.mp hf2 with hf2' | hf2'
          · obtain ⟨hf1m, hf1k2⟩ := mem_delKey.mp hf1'
            obtain ⟨hf1m', hf1k1⟩ := mem_delKey.mp hf1m
            obtain ⟨hf2m, hf2k2⟩ := mem_delKey.mp hf2'
            obtain ⟨hf2m', hf2k1⟩ := mem_delKey.mp hf2m
            rcases hinv f1 hf1m' f2 hf2m' hne hp with hk | hk
            · have := hkeys _ hk
              rcases haor with hh | hh <;> omega
            · have := hkeys _ hk
              rcases haor with hh | hh <;> omega
          · simp only [List.mem_singleton] at hf2'
            subst hf2'
            right
            simp
        · simp only [List.mem_singleton] at hf1'
          subst hf1'
          left
          simp

theorem WF_insert_fresh {st : ℕ × CMap} (c : Cluster) (hwf : WF st) :
    WF (st.1 + 1, st.2 ++ [(st.1, c)]) := by
  constructor
  · simp only [List.map_append, List.map_cons, List.map_nil]
    refine List.Nodup.append hwf.1 (List.nodup_singleton _) ?_
    intro k hk hk'
    simp only [List.mem_singleton] at hk'
    have := hwf.2 k hk
    omega
  · intro k hk
    simp only [List.map_append, List.map_cons, List.map_nil, List.mem_append,
      List.mem_singleton] at hk
    rcases hk with hk | hk
    · exact Nat.lt_succ_of_lt (hwf.2 k hk)
    · omega

theorem clusterStream_localOpt {score : Ref → Ref → α}
    (hsym : ∀ a b, score a b = score b a) (refs : Finset Ref) (st : ℕ × CMap)
    (hwf : WF st) (hopt : LocalOpt score st.2) :
    LocalOpt score (clusterStream score refs st).2 ∧ WF (clusterStream score refs st) := by
  unfold clusterStream
  apply streamLoop_localOpt hsym
  · exact WF_insert_fresh _ hwf
  · simp
  · intro e he
    simp only [List.mem_singleton] at he
    subst he
    exact List.mem_append_right _ (by simp)
  · simp
  · intro e1 he1 e2 he2 hne hpos
    dsimp only at he1 he2
    rcases List.mem_append.mp he1 with h1 | h1
    · rcases List.mem_append.mp he2 with h2 | h2
      · exact absurd hpos (hopt e1 h1 e2 h2 hne)
      · simp only [List.mem_singleton] at h2
        subst h2
        right
        simp
    · simp only [List.mem_singleton] at h1
      subst h1
      left
      simp

theorem resolveAll_localOpt {score : Ref → Ref → α}
    (hsym : ∀ a b, score a b = score b a) (refs : List Ref) :
    ∀ st : ℕ × CMap, WF st → LocalOpt score st.2 →
      LocalOpt score (resolveAll score refs st).2 ∧ WF (resolveAll score refs st) := by
  induction refs with
  | nil =>
    intro st hwf hopt
    exact ⟨hopt, hwf⟩
  | cons r rest ih =>
    intro st hwf hopt
    have hstep := clusterStream_localOpt hsym {r} st hwf hopt
    exact ih _ hstep.2 hstep.1

end EntiPy.ER

namespace EntiPy.ER

variable {α : Type} [LinearOrderedCommRing α]

/-- The reference with id 0 carrying the dummy blocking key. -/
def refA0 : Ref := ⟨0, [("BK", "0")]⟩

/-- The reference with id 1 carrying the dummy blocking key. -/
def refB1 : Ref := ⟨1, [("BK", "0")]⟩

/-- An asymmetric pairwise score, realisable in the source by the legal
user comparator `fun a b => a ≤ b` on a single field with the default
probabilities (`1` stands for `log 9`, `-1` for `log (1/9)`). -/
def scoreAsym : Ref → Ref → ℤ := fun x y =>
  if x.oid = 1 ∧ y.oid = 0 then 1 else if x.oid = 0 ∧ y.oid = 1 then -1 else 0

/-- Claim C1, counterexample: with an asymmetric (but legal) reference
score, `resolve()` can return a map in which two distinct live clusters
have strictly positive weightsum — the streaming loop scores the pair
in active-to-other order, while the local `_cluster_pass` re-scores it
in (lower oid)-to-(higher oid) order and declines the merge, so the
positive pair survives. -/
theorem serialResolve_not_localOpt :
    ¬ LocalOpt scoreAsym (serialResolve scoreAsym [refA0, refB1]).2 := by
  decide

/-- Claim C1, amended: provided the pairwise reference score is
symmetric (as it is under the default equality comparators), after
`resolve()` returns no two distinct live clusters of `cluster_map` have
strictly positive weightsum — a full run from the empty map is locally
optimal, and resolving further references from any locally optimal
well-formed state preserves local optimality. -/
theorem serialResolve_localOpt (score : Ref → Ref → α)
    (hsym : ∀ a b, score a b = score b a) (refs : List Ref) :
    LocalOpt score (serialResolve score refs).2 ∧
    (∀ st : ℕ × CMap, WF st → LocalOpt score st.2 →
      LocalOpt score (resolveAll score refs st).2) := by
  have hwf0 : WF ((0, []) : ℕ × CMap) := by
    constructor
    · exact List.nodup_nil
    · intro k hk
      cases hk
  have hopt0 : LocalOpt score ([] : CMap) := by
    unfold LocalOpt
    intro e1 he1
    cases he1
  exact ⟨(resolveAll_localOpt hsym refs (0, []) hwf0 hopt0).1,
    fun st hwf hopt => (resolveAll_localOpt hsym refs st hwf hopt).1⟩

/-- Witness for the amended claim C1, at a concrete symmetric score and
two concrete references. -/
theorem serialResolve_localOpt_witness :
    LocalOpt scoreOneZ (serialResolve scoreOneZ [refA0, refB1]).2 :=
  (serialResolve_localOpt scoreOneZ (fun _ _ => rfl) [refA0, refB1]).1

/-- The clusters of a map hold pairwise disjoint reference sets. -/
def DisjRefs (m : CMap) : Prop :=
  m.Pairwise fun e1 e2 => Disjoint e1.2.references e2.2.references

theorem DisjRefs_entries {m : CMap} (h : DisjRefs m) {o1 o2 : ℕ} {c1 c2 : Cluster}
    (h1 : (o1, c1) ∈ m) (h2 : (o2, c2) ∈ m) (hne : o1 ≠ o2) :
    Disjoint c1.references c2.references := by
  have hsymr : Symmetric (fun e1 e2 : ℕ × Cluster =>
      Disjoint e1.2.references e2.2.references) := fun x y hxy => hxy.symm
  exact List.Pairwise.forall hsymr h h1 h2 fun hq => hne (congrArg Prod.fst hq)

theorem DisjRefs_sublist {m m' : CMap} (hs : m'.Sublist m) (h : DisjRefs m) :
    DisjRefs m' :=
  List.Pairwise.sublist hs h

theorem union_val_disj {s t : Finset Ref} (h : Disjoint s t) :
    (s ∪ t).val = s.val + t.val := by
  rw [← Finset.disjUnion_eq_union s t h]
  rfl

theorem refsOf_append (m1 m2 : CMap) : refsOf (m1 ++ m2) = refsOf m1 + refsOf m2 := by
  simp [refsOf]

theorem mem_le_refsOf {e : ℕ × Cluster} {m : CMap} (he : e ∈ m) :
    e.2.references.val ≤ refsOf m := by
  induction m with
  | nil => cases he
  | cons f t ih =>
    have hc : refsOf (f :: t) = f.2.references.val + refsOf t := by
      simp [refsOf]
    rcases List.mem_cons.mp he with rfl | ht
    · rw [hc]
      exact Multiset.le_add_right _ _
    · rw [hc]
      exact le_trans (ih ht) (Multiset.le_add_left _ _)

theorem refsOf_delKey {k : ℕ} {c : Cluster} {m : CMap}
    (hnd : (m.map Prod.fst).Nodup) (hm : (k, c) ∈ m) :
    refsOf (delKey k m) + c.references.val = refsOf m := by
  induction m with
  | nil => cases hm
  | cons e t ih =>
    obtain ⟨k', c'⟩ := e
    simp only [List.map_cons, List.nodup_cons] at hnd
    have hc : ∀ l : CMap, ∀ f : ℕ × Cluster,
        refsOf (f :: l) = f.2.references.val + refsOf l := by
      intro l f
      simp [refsOf]
    rcases List.mem_cons.mp hm with heq | ht
    · cases heq
      have hdrop : delKey k ((k, c) :: t) = delKey k t := by
        unfold delKey
        exact List.filter_cons_of_neg (by simp)
      rw [hdrop, delKey_eq_of_not_mem hnd.1, hc t (k, c)]
      exact add_comm _ _
    · have hk : k' ≠ k := by
        intro h
        subst h
        exact hnd.1 (List.mem_map.mpr ⟨(k', c), ht, rfl⟩)
      have hkeep : delKey k ((k', c') :: t) = (k', c') :: delKey k t := by
        unfold delKey
        exact List.filter_cons_of_pos (by simpa using hk)
      rw [hkeep, hc _ (k', c'), hc t (k', c'), add_assoc, ih hnd.2 ht]

theorem streamLoop_refsOf (score : Ref → Ref → α) :
    ∀ (fuel : ℕ) (active : CMap) (st : ℕ × CMap),
      WF st → (∀ e ∈ active, e ∈ st.2) → DisjRefs st.2 →
      refsOf (streamLoop score fuel active st).2 = refsOf st.2 ∧
      WF (streamLoop score fuel active st) ∧
      DisjRefs (streamLoop score fuel active st).2 := by
  intro fuel
  induction fuel with
  | zero =>
    intro active st hwf hsub hdisj
    exact ⟨rfl, hwf, hdisj⟩
  | succ n ih =>
    intro active st hwf hsub hdisj
    cases hps : pairSet score active st.2 with
    | nil =>
      have hexit : streamLoop score (n + 1) active st = st := by
        conv_lhs => unfold streamLoop
        rw [hps]
      rw [hexit]
      exact ⟨rfl, hwf, hdisj⟩
    | cons p ps =>
      obtain ⟨o1, o2, c1, c2, m1, m2, hlt, _, _, heqpos, heqneg⟩ :=
        streamLoop_step hwf hsub hps
      by_cases hp : 0 < Cluster.weightsum score c1 c2
      · rw [heqpos hp]
        have hwf' := WF_replace o1 o2 (Cluster.merge st.1 c1 c2) hwf
        have hdisj12 : Disjoint c1.references c2.references :=
          DisjRefs_entries hdisj m1 m2 (by omega)
        have hsubl : (delKey o2 (delKey o1 st.2)).Sublist st.2 :=
          List.Sublist.trans (delKey_sublist o2 _) (delKey_sublist o1 _)
        have hdisj' : DisjRefs (delKey o2 (delKey o1 st.2) ++
            [(st.1, Cluster.merge st.1 c1 c2)]) := by
          unfold DisjRefs
          rw [List.pairwise_append]
          refine ⟨DisjRefs_sublist hsubl hdisj, by simp, ?_⟩
          intro f hf g hg
          simp only [List.mem_singleton] at hg
          subst hg
          obtain ⟨hfm, hfk2⟩ := mem_delKey.mp hf
          obtain ⟨hfm', hfk1⟩ := mem_delKey.mp hfm
          have d1 : Disjoint f.2.references c1.references :=
            DisjRefs_entries hdisj hfm' m1 hfk1
          have d2 : Disjoint f.2.references c2.references :=
            DisjRefs_entries hdisj hfm' m2 hfk2
          exact Finset.disjoint_union_right.mpr ⟨d1, d2⟩
        have hr1 : refsOf (delKey o1 st.2) + c1.references.val = refsOf st.2 :=
          refsOf_delKey hwf.1 m1
        have hm2' : (o2, c2) ∈ delKey o1 st.2 :=
          mem_delKey.mpr ⟨m2, by dsimp only; omega⟩
        have hr2 : refsOf (delKey o2 (delKey o1 st.2)) + c2.references.val =
            refsOf (delKey o1 st.2) :=
          refsOf_delKey (nodup_keys_delKey hwf.1) hm2'
        have hmerge : (Cluster.merge st.1 c1 c2).references.val =
            c1.references.val + c2.references.val := union_val_disj hdisj12
        obtain ⟨ih1, ih2, ih3⟩ := ih [(st.1, Cluster.merge st.1 c1 c2)]
          (st.1 + 1, delKey o2 (delKey o1 st.2) ++ [(st.1, Cluster.merge st.1 c1 c2)])
          hwf'
          (by
            intro f hf
            simp only [List.mem_singleton] at hf
            subst hf
            exact List.mem_append_right _ (by simp))
          hdisj'
        refine ⟨?_, ih2, ih3⟩
        rw [ih1]
        dsimp only
        rw [refsOf_append]
        have hsing : refsOf ([(st.1, Cluster.merge st.1 c1 c2)] : CMap) =
            (Cluster.merge st.1 c1 c2).references.val := by
          simp [refsOf]
        rw [hsing, hmerge, add_comm c1.references.val c2.references.val, ← add_assoc,
          hr2, hr1]
      · rw [heqneg hp]
        exact ih [] st hwf (by intro f hf; cases hf) hdisj

theorem clusterStream_refsOf (score : Ref → Ref → α) (refs : Finset Ref)
    (st : ℕ × CMap) (hwf : WF st) (hdisj : DisjRefs st.2)
    (hfresh : ∀ e ∈ st.2, Disjoint refs e.2.references) :
    refsOf (clusterStream score refs st).2 = refsOf st.2 + refs.val ∧
    WF (clusterStream score refs st) ∧ DisjRefs (clusterStream score refs st).2 := by
  unfold clusterStream
  have hdisj' : DisjRefs (st.2 ++ [(st.1, (⟨st.1, refs⟩ : Cluster))]) := by
    unfold DisjRefs
    rw [List.pairwise_append]
    refine ⟨hdisj, by simp, ?_⟩
    intro f hf g hg
    simp only [List.mem_singleton] at hg
    subst hg
    exact (hfresh f hf).symm
  obtain ⟨h1, h2, h3⟩ := streamLoop_refsOf score (st.2.length + 1)
    [(st.1, (⟨st.1, refs⟩ : Cluster))] (st.1 + 1, st.2 ++ [(st.1, ⟨st.1, refs⟩)])
    (WF_insert_fresh _ hwf)
    (by
      intro f hf
      simp only [List.mem_singleton] at hf
      subst hf
      exact List.mem_append_right _ (by simp))
    hdisj'
  refine ⟨?_, h2, h3⟩
  rw [h1]
  dsimp only
  rw [refsOf_append]
  have hsing : refsOf ([(st.1, (⟨st.1, refs⟩ : Cluster))] : CMap) = refs.val := by
    simp [refsOf]
  rw [hsing]

theorem resolveAll_refsOf (score : Ref → Ref → α) (refs : List Ref) :
    ∀ st : ℕ × CMap, WF st → DisjRefs st.2 → refs.Nodup →
      (∀ r ∈ refs, r ∉ refsOf st.2) →
      refsOf (resolveAll score refs st).2 = refsOf st.2 + (refs : Multiset Ref) ∧
      WF (resolveAll score refs st) ∧ DisjRefs (resolveAll score refs st).2 := by
  induction refs with
  | nil =>
    intro st hwf hdisj _ _
    exact ⟨by simp [resolveAll], hwf, hdisj⟩
  | cons r rest ih =>
    intro st hwf hdisj hnd hfr
    have hfr_r : r ∉ refsOf st.2 := hfr r (List.mem_cons_self _ _)
    have hfresh : ∀ e ∈ st.2, Disjoint ({r} : Finset Ref) e.2.references := by
      intro e he
      rw [Finset.disjoint_singleton_left]
      intro hmem
      exact hfr_r (Multiset.mem_of_le (mem_le_refsOf he) (Finset.mem_def.mp hmem))
    obtain ⟨h1, h2, h3⟩ := clusterStream_refsOf score {r} st hwf hdisj hfresh
    obtain ⟨g1, g2, g3⟩ := ih (clusterStream score {r} st) h2 h3
      (List.nodup_cons.mp hnd).2
      (by
        intro r' hr'
        rw [h1]
        intro hmem
        rcases Multiset.mem_add.mp hmem with hm | hm
        · exact hfr r' (List.mem_cons_of_mem _ hr') hm
        · have hrr : r' = r := by simpa using hm
          subst hrr
          exact (List.nodup_cons.mp hnd).1 hr')
    refine ⟨?_, g2, g3⟩
    show refsOf (resolveAll score rest (clusterStream score {r} st)).2 =
      refsOf st.2 + ((r :: rest : List Ref) : Multiset Ref)
    rw [g1, h1]
    have hval : ({r} : Finset Ref).val = ({r} : Multiset Ref) := rfl
    rw [hval, add_assoc]
    congr 1

/-- Claim C7, counterexample: if the very same reference is ingested
twice, the merge step takes the *set* union of the two clusters'
reference sets, so the multiset union of the final clusters holds one
copy while two were ingested — conservation fails as a multiset
statement. -/
theorem serialResolve_not_conservation :
    refsOf (serialResolve scoreOneZ [refA0, refA0]).2 ≠
      ([refA0, refA0] : Multiset Ref) := by
  decide

/-- Claim C7, amended: provided the ingested references are pairwise
distinct, after `resolve()` the multiset union of the reference sets of
all live clusters equals the multiset of ingested references — no
reference is lost or duplicated by `_cluster_stream` or by merging. -/
theorem serialResolve_conservation (score : Ref → Ref → α) (refs : List Ref)
    (hnd : refs.Nodup) :
    refsOf (serialResolve score refs).2 = (refs : Multiset Ref) := by
  have hwf0 : WF ((0, []) : ℕ × CMap) := by
    constructor
    · exact List.nodup_nil
    · intro k hk
      cases hk
  have h := resolveAll_refsOf score refs (0, []) hwf0
    (by constructor) hnd
    (by
      intro r _ hmem
      simp [refsOf] at hmem)
  have h0 : refsOf ([] : CMap) = 0 := rfl
  rw [show serialResolve score refs = resolveAll score refs (0, []) from rfl]
  rw [h.1, h0, zero_add]

/-- Witness for the amended claim C7, at two distinct concrete
references and the constant score 1. -/
theorem serialResolve_conservation_witness :
    refsOf (serialResolve scoreOneZ [refA0, refB1]).2 =
      ([refA0, refB1] : Multiset Ref) :=
  serialResolve_conservation scoreOneZ [refA0, refB1] (by decide)

end EntiPy.ER
